import Mathlib

/-!
Verification of the clean-audio rendering engine of `fwea-clean-stream`
(`src/unnamed/part_009`: `createVolumeAutomation`, `interleaveChannels`,
`encodeWAV`, `renderCleanAudio`).

Embedding conventions:
* JavaScript numbers are modelled as exact rationals (`ℚ`).
* A decoded `AudioBuffer` is a sample rate together with a list of channels,
  each channel a list of samples.  Decoding itself (`loadAudioBuffer`) is an
  external collaborator and is not modelled: the renderer is analysed as a
  function of the two decoded buffers.
* The Web Audio `GainNode` automation timeline is modelled as a list of
  automation events kept sorted by time; `setValueAtTime` /
  `linearRampToValueAtTime` insert an event into the timeline after all
  events of smaller-or-equal time, and raise a `RangeError` if the scheduled
  time is negative, as the Web Audio specification prescribes.  Evaluation of
  the timeline at a time `T` follows the Web Audio semantics: a set-value
  event holds its value, a linear-ramp event interpolates linearly from the
  previous event in the timeline.
* `OfflineAudioContext` playback of a source buffer whose sample rate differs
  from the context rate resamples it; the embedding models the resampling as
  linear interpolation at the rational playback position (this is exact, and
  degenerates to direct sample lookup, whenever the rates agree — the only
  case any theorem below evaluates samples in).
* `OfflineAudioContext` construction fails (`NotSupportedError`) when the
  requested length is `0`; this is modelled.  Browser-specific restrictions
  on the supported context sample-rate range are not modelled.
-/

unseal Rat.mul Rat.add Rat.sub Rat.inv Rat.ofScientific

/-- `MuteRegion` from `src/unnamed/part_009` (`end` is a Lean keyword, the
field is renamed `end_`). -/
structure MuteRegion where
  start : ℚ
  end_ : ℚ
deriving DecidableEq, Repr

/-- The 30ms fade used by `createVolumeAutomation` (`const fadeTime = 0.03`). -/
def fadeTime : ℚ := 3 / 100

/-- The merge tolerance hard-coded in `createVolumeAutomation`
(`region.start <= last.end + 0.1`). -/
def mergeGapTolerance : ℚ := 1 / 10

/-- Stable insertion of a region into a list sorted by `start`, placing the
new region after regions with equal `start`: one step of the stable
`Array.prototype.sort((a, b) => a.start - b.start)`. -/
def insertRegion (r : MuteRegion) : List MuteRegion → List MuteRegion
  | [] => [r]
  | x :: xs => if x.start ≤ r.start then x :: insertRegion r xs else r :: x :: xs

/-- `[...muteRegions].sort((a, b) => a.start - b.start)`: stable sort by
`start`. -/
def sortRegions (regs : List MuteRegion) : List MuteRegion :=
  regs.foldl (fun acc r => insertRegion r acc) []

/-- The merge loop of `createVolumeAutomation`, written with the "current"
interval explicit: `mergeRec cur rs` processes the remaining sorted regions
`rs`, merging into `cur` every region whose start is within
`mergeGapTolerance` of the current end. -/
def mergeRec (cur : MuteRegion) : List MuteRegion → List MuteRegion
  | [] => [cur]
  | r :: rs =>
    if r.start ≤ cur.end_ + mergeGapTolerance then
      mergeRec ⟨cur.start, max cur.end_ r.end_⟩ rs
    else
      cur :: mergeRec r rs

/-- The `mergedRegions` list computed by `createVolumeAutomation`: sort by
start, then sequentially merge overlapping-or-close regions. -/
def mergedRegions (regs : List MuteRegion) : List MuteRegion :=
  match sortRegions regs with
  | [] => []
  | r :: rs => mergeRec r rs

/-- A Web Audio gain-automation event: `gain.setValueAtTime(v, t)` or
`gain.linearRampToValueAtTime(v, t)`. -/
inductive AutomationEvent where
  | setValue (v t : ℚ)
  | linearRamp (v t : ℚ)
deriving DecidableEq, Repr

/-- The scheduled time of an automation event. -/
def AutomationEvent.time : AutomationEvent → ℚ
  | .setValue _ t => t
  | .linearRamp _ t => t

/-- The target value of an automation event. -/
def AutomationEvent.value : AutomationEvent → ℚ
  | .setValue v _ => v
  | .linearRamp v _ => v

/-- Insert an automation event into the (time-sorted) timeline, after all
events of smaller-or-equal time, as the Web Audio specification requires. -/
def insertEvent (e : AutomationEvent) : List AutomationEvent → List AutomationEvent
  | [] => [e]
  | x :: xs => if x.time ≤ e.time then x :: insertEvent e xs else e :: x :: xs

/-- The four automation calls issued by the body of the
`for (const region of mergedRegions)` loop of `createVolumeAutomation`, in
program order:
`setValueAtTime(1, muteStart)`, `linearRampToValueAtTime(0, muteStart + fadeTime)`,
`setValueAtTime(0, muteEnd - fadeTime)`, `linearRampToValueAtTime(1, muteEnd)`
with `muteStart = max(0, start - fadeTime)` and
`muteEnd = min(duration, end + fadeTime)`. -/
def regionEvents (d : ℚ) (m : MuteRegion) : List AutomationEvent :=
  [.setValue 1 (max 0 (m.start - fadeTime)),
   .linearRamp 0 (max 0 (m.start - fadeTime) + fadeTime),
   .setValue 0 (min d (m.end_ + fadeTime) - fadeTime),
   .linearRamp 1 (min d (m.end_ + fadeTime))]

/-- All automation calls issued by `createVolumeAutomation`, in program
order: the initial `gain.setValueAtTime(1, 0)` followed by the four calls
for each merged region. -/
def scheduleEvents (regs : List MuteRegion) (d : ℚ) : List AutomationEvent :=
  .setValue 1 0 :: (mergedRegions regs).flatMap (regionEvents d)

/-- The timeline produced by issuing the scheduled calls in program order
(each call inserts its event into the time-sorted timeline). -/
def automationEvents (regs : List MuteRegion) (d : ℚ) : List AutomationEvent :=
  (scheduleEvents regs d).foldl (fun acc e => insertEvent e acc) []

/-- `setValueAtTime` / `linearRampToValueAtTime` throw a `RangeError` when
the scheduled time is negative; this detects whether any call of
`createVolumeAutomation` does so. -/
def hasNegativeTime (regs : List MuteRegion) (d : ℚ) : Bool :=
  (scheduleEvents regs d).any (fun e => e.time < 0)

/-- Web Audio evaluation of a time-sorted automation timeline at time `T`,
starting from value `v0` set at time `t0`: a set-value event holds its value
from its time on, a linear-ramp event interpolates linearly from the previous
event. -/
def evalEvents (T : ℚ) : ℚ → ℚ → List AutomationEvent → ℚ
  | v0, _, [] => v0
  | v0, _, .setValue v t :: rest =>
    if T < t then v0
    else evalEvents T v t rest
  | v0, t0, .linearRamp v t :: rest =>
    if T < t then v0 + (v - v0) * (T - t0) / (t - t0)
    else evalEvents T v t rest

/-- The gain applied to the vocal channel at time `T`: the automation
timeline of `createVolumeAutomation`, evaluated at `T` (the gain parameter's
default value is `1` at time `0`). -/
def gainValue (regs : List MuteRegion) (d T : ℚ) : ℚ :=
  evalEvents T 1 0 (automationEvents regs d)

/-- A decoded `AudioBuffer`: fixed sample rate, one sample list per channel. -/
structure AudioBuffer where
  sampleRate : ℕ
  channels : List (List ℚ)
deriving DecidableEq, Repr

/-- `AudioBuffer.length` (frame count). -/
def bufLength (b : AudioBuffer) : ℕ := (b.channels.headD []).length

/-- `AudioBuffer.duration = length / sampleRate`. -/
def duration (b : AudioBuffer) : ℚ := (bufLength b : ℚ) / (b.sampleRate : ℚ)

/-- Every channel holds exactly `length` samples (true of every real
`AudioBuffer`). -/
def wellFormed (b : AudioBuffer) : Prop :=
  ∀ c ∈ b.channels, c.length = bufLength b

/-- Sample lookup; out-of-range indices read as silence. -/
def sampleAt (data : List ℚ) (i : ℕ) : ℚ := data.getD i 0

/-- The channel of a source buffer feeding output channel `ch` of the
stereo destination: Web Audio up-mixes a mono source by writing its single
channel to both output channels; a stereo source connects channel-wise. -/
def sourceChannel (b : AudioBuffer) (ch : ℕ) : List ℚ :=
  if b.channels.length = 1 then b.channels.headD [] else b.channels.getD ch []

/-- Playback of a source channel (recorded at `bufRate`) at absolute time
`t`: the context resamples; modelled as linear interpolation at position
`t * bufRate`, which is exact direct lookup whenever `t * bufRate` is the
integer `i` (in particular whenever source and context rates agree). -/
def sampleAtTime (data : List ℚ) (bufRate : ℕ) (t : ℚ) : ℚ :=
  let p : ℚ := t * (bufRate : ℚ)
  let k : ℕ := (⌊p⌋).toNat
  let frac : ℚ := p - (⌊p⌋ : ℚ)
  (1 - frac) * sampleAt data k + frac * sampleAt data (k + 1)

/-- The vocal contribution to the rendered mix at output channel `ch` and
absolute time `t`: the vocal source routed through the automated gain node. -/
def vocalContributionAtTime (v : AudioBuffer) (regs : List MuteRegion)
    (d : ℚ) (ch : ℕ) (t : ℚ) : ℚ :=
  gainValue regs d t * sampleAtTime (sourceChannel v ch) v.sampleRate t

/-- The instrumental contribution to the rendered mix at output channel `ch`
and absolute time `t`: the instrumental source, connected directly to the
destination with no gain node. -/
def instrContributionAtTime (inst : AudioBuffer) (ch : ℕ) (t : ℚ) : ℚ :=
  sampleAtTime (sourceChannel inst ch) inst.sampleRate t

/-- `max(vocalsBuffer.duration, instrumentalBuffer.duration)` in
`renderCleanAudio`. -/
def mixDuration (v inst : AudioBuffer) : ℚ := max (duration v) (duration inst)

/-- `Math.ceil(duration * sampleRate)` in `renderCleanAudio` (the
`OfflineAudioContext` length). -/
def totalSamples (v inst : AudioBuffer) : ℕ :=
  (⌈mixDuration v inst * (v.sampleRate : ℚ)⌉).toNat

/-- The buffer produced by `offlineContext.startRendering()`: two channels
(`numChannels = 2` is forced), each output sample the sum of the gain-shaped
vocal contribution and the untouched instrumental contribution at the
sample's time. -/
def renderedMix (v inst : AudioBuffer) (regs : List MuteRegion) : AudioBuffer :=
  { sampleRate := v.sampleRate
    channels :=
      (List.range 2).map fun (ch : ℕ) =>
        (List.range (totalSamples v inst)).map fun (i : ℕ) =>
          vocalContributionAtTime v regs (mixDuration v inst) ch
              ((i : ℚ) / (v.sampleRate : ℚ))
            + instrContributionAtTime inst ch ((i : ℚ) / (v.sampleRate : ℚ)) }

/-- `renderCleanAudio` on already-decoded buffers: constructs the offline
context (failing with `NotSupportedError` when the computed length is `0`),
schedules the gain automation (failing with a `RangeError` when any
automation time is negative), and otherwise renders.  Fetch/decode failures
of `loadAudioBuffer` happen before the buffers exist and are outside this
model. -/
def renderCleanAudio (v inst : AudioBuffer) (regs : List MuteRegion) :
    Except String AudioBuffer :=
  if totalSamples v inst = 0 then
    .error "NotSupportedError: OfflineAudioContext length must be positive"
  else if hasNegativeTime regs (mixDuration v inst) then
    .error "RangeError: automation time must be non-negative"
  else
    .ok (renderedMix v inst regs)

/-- One output sample of a rendered buffer. -/
def mixSample (b : AudioBuffer) (ch i : ℕ) : ℚ :=
  (b.channels.getD ch []).getD i 0

/-- `interleaveChannels`: a mono buffer is copied as-is into the
`length * numChannels` result (`result.set(...)`, the rest of the zero-filled
array untouched); otherwise frames are written as `result[2i] = left[i]`,
`result[2i+1] = right[i]`, slots from `2 * length` on staying zero. -/
def interleaveChannels (b : AudioBuffer) : List ℚ :=
  let n := b.channels.length
  let len := bufLength b
  if n = 1 then b.channels.headD []
  else
    (List.range (len * n)).map fun j =>
      if j < 2 * len then
        if j % 2 = 0 then sampleAt (b.channels.getD 0 []) (j / 2)
        else sampleAt (b.channels.getD 1 []) (j / 2)
      else 0

/-- JavaScript `ToIntegerOrInfinity` on a finite number: truncation toward
zero (applied by `DataView.setInt16`). -/
def ratTrunc (q : ℚ) : ℤ := if q < 0 then -(⌊-q⌋) else ⌊q⌋

/-- The 16-bit conversion of `encodeWAV`:
`sample = Math.max(-1, Math.min(1, x)); sample < 0 ? sample * 0x8000 : sample * 0x7FFF`,
truncated by `setInt16`. -/
def pcm16 (x : ℚ) : ℤ :=
  let sample := max (-1) (min 1 x)
  ratTrunc (if sample < 0 then sample * 32768 else sample * 32767)

/-- The two bytes written by `view.setInt16(offset, n, true)`: two's
complement, little-endian. -/
def int16Bytes (n : ℤ) : List ℕ :=
  let m := (n % 65536).toNat
  [m % 256, m / 256]

/-- The two bytes written by `view.setUint16(offset, n, true)`. -/
def u16Bytes (n : ℕ) : List ℕ := [n % 256, n / 256 % 256]

/-- The four bytes written by `view.setUint32(offset, n, true)`. -/
def u32Bytes (n : ℕ) : List ℕ :=
  [n % 256, n / 256 % 256, n / 65536 % 256, n / 16777216 % 256]

/-- The 44 header bytes written by `encodeWAV` (the `writeString` calls are
the byte values of `'RIFF'`, `'WAVE'`, `'fmt '`, `'data'`). -/
def wavHeader (numChannels sampleRate numSamples : ℕ) : List ℕ :=
  let dataSize := numSamples * numChannels * 2
  let bufferSize := 44 + dataSize
  [82, 73, 70, 70] ++ u32Bytes (bufferSize - 8) ++ [87, 65, 86, 69]
    ++ [102, 109, 116, 32] ++ u32Bytes 16 ++ u16Bytes 1 ++ u16Bytes numChannels
    ++ u32Bytes sampleRate ++ u32Bytes (sampleRate * numChannels * 2)
    ++ u16Bytes (numChannels * 2) ++ u16Bytes 16
    ++ [100, 97, 116, 97] ++ u32Bytes dataSize

/-- `encodeWAV` from `src/unnamed/part_009`: 44-byte RIFF/WAVE header,
followed by the interleaved samples as clamped, scaled, little-endian
signed 16-bit PCM. -/
def encodeWAV (b : AudioBuffer) : List ℕ :=
  let numChannels := min 2 b.channels.length
  let sampleRate := b.sampleRate
  let numSamples := bufLength b
  let interleaved := interleaveChannels b
  wavHeader numChannels sampleRate numSamples
    ++ (interleaved.map fun x => int16Bytes (pcm16 x)).flatten

/-- The byte at a given offset (missing bytes read 0). -/
def byteAt : List ℕ → ℕ → ℕ
  | [], _ => 0
  | b :: _, 0 => b
  | _ :: bs, n + 1 => byteAt bs n

/-- Little-endian read of `k` bytes at offset `off` (missing bytes read 0). -/
def readLE (bs : List ℕ) : ℕ → ℕ → ℕ
  | _, 0 => 0
  | off, k + 1 => byteAt bs off + 256 * readLE bs (off + 1) k

/-- The gain control points scheduled by `createVolumeAutomation`, in the
order the calls are issued: `(time, value)` of each scheduled event. -/
def controlPoints (regs : List MuteRegion) (d : ℚ) : List (ℚ × ℚ) :=
  (scheduleEvents regs d).map fun e => (e.time, e.value)

/-- Clamp a time to `[0, totalDuration]`. -/
def clampTime (d x : ℚ) : ℚ := max 0 (min d x)

/-- The control points as the spec's Gain Envelope Builder sentence
describes them: for each interval `[s,e]`, the four points
`(s - fadeTime, 1)`, `(s, 0)`, `(e - fadeTime, 0)`, `(e, 1)` clamped to
`[0, totalDuration]`, with a leading `(0, 1)` point if the first interval
does not start at `0`.  This definition follows the claim's words and is
compared against `controlPoints`, which follows the code. -/
def claimedControlPoints (intervals : List MuteRegion) (d f : ℚ) :
    List (ℚ × ℚ) :=
  let pts := intervals.flatMap fun m =>
    [(clampTime d (m.start - f), 1), (clampTime d m.start, 0),
     (clampTime d (m.end_ - f), 0), (clampTime d m.end_, 1)]
  if (intervals.headD ⟨0, 0⟩).start ≠ 0 then (0, 1) :: pts else pts

/-- The plain additive mix described by the spec's boundary property: the
two sources summed sample-for-sample with no gain shaping applied to
either.  This definition follows the spec's words and is compared against
`renderedMix`. -/
def plainAdditiveMix (v inst : AudioBuffer) : AudioBuffer :=
  { sampleRate := v.sampleRate
    channels :=
      (List.range 2).map fun (ch : ℕ) =>
        (List.range (totalSamples v inst)).map fun (i : ℕ) =>
          sampleAtTime (sourceChannel v ch) v.sampleRate
              ((i : ℚ) / (v.sampleRate : ℚ))
            + instrContributionAtTime inst ch ((i : ℚ) / (v.sampleRate : ℚ)) }

/-- A merged region lies fully inside the track with room for the fades:
the clamping `max(0, start - fadeTime)` / `min(duration, end + fadeTime)` in
`createVolumeAutomation` does not bite. -/
def inBounds (d : ℚ) (m : MuteRegion) : Prop :=
  fadeTime ≤ m.start ∧ m.start ≤ m.end_ ∧ m.end_ + fadeTime ≤ d

instance (d : ℚ) (m : MuteRegion) : Decidable (inBounds d m) := by
  unfold inBounds; infer_instance

/-- The separation the merge loop guarantees between consecutive output
intervals: the gap is strictly larger than the merge tolerance. -/
def sepR (a b : MuteRegion) : Prop := a.end_ + mergeGapTolerance < b.start

/-- Whether a render attempt produced a result (the promise resolved)
rather than raising an error (the promise rejected). -/
def isOk {ε α : Type} : Except ε α → Bool
  | .ok _ => true
  | .error _ => false

/-- The first interval emitted by the merge loop starts where the current
interval starts. -/
theorem mergeRec_head_start (rs : List MuteRegion) : ∀ cur : MuteRegion,
    ∃ e2 t, mergeRec cur rs = ⟨cur.start, e2⟩ :: t := by
  induction rs with
  | nil => intro cur; exact ⟨cur.end_, [], rfl⟩
  | cons r rs ih =>
    intro cur
    rw [mergeRec]
    split
    · exact ih _
    · exact ⟨cur.end_, mergeRec r rs, rfl⟩

/-- Consecutive intervals emitted by the merge loop are separated by more
than the merge tolerance. -/
theorem mergeRec_chain' (rs : List MuteRegion) : ∀ cur : MuteRegion,
    List.Chain' sepR (mergeRec cur rs) := by
  induction rs with
  | nil => intro cur; simp [mergeRec]
  | cons r rs ih =>
    intro cur
    rw [mergeRec]
    split
    · exact ih _
    · rename_i h
      obtain ⟨e2, t, ht⟩ := mergeRec_head_start rs r
      rw [ht, List.chain'_cons]
      exact ⟨not_le.mp h, ht ▸ ih r⟩

/-- The merge loop preserves in-bounds-ness of the intervals. -/
theorem mergeRec_inBounds {d : ℚ} (rs : List MuteRegion) : ∀ cur : MuteRegion,
    inBounds d cur → (∀ r ∈ rs, inBounds d r) →
    ∀ m ∈ mergeRec cur rs, inBounds d m := by
  induction rs with
  | nil =>
    intro cur hcur _ m hm
    simp only [mergeRec, List.mem_singleton] at hm
    exact hm ▸ hcur
  | cons r rs ih =>
    intro cur hcur hrs m hm
    rw [mergeRec] at hm
    split at hm
    · refine ih _ ?_ (fun x hx => hrs x (List.mem_cons_of_mem _ hx)) m hm
      obtain ⟨h1, h2, h3⟩ := hcur
      obtain ⟨g1, g2, g3⟩ := hrs r (List.mem_cons_self _ _)
      refine ⟨h1, le_trans h2 (le_max_left _ _), ?_⟩
      rcases max_cases cur.end_ r.end_ with ⟨he, _⟩ | ⟨he, _⟩ <;> rw [he] <;>
        assumption
    · rcases List.mem_cons.mp hm with rfl | hm'
      · exact hcur
      · exact ih r (hrs r (List.mem_cons_self _ _))
          (fun x hx => hrs x (List.mem_cons_of_mem _ hx)) m hm'

/-- Membership in an insertion step of the stable sort. -/
theorem mem_insertRegion {x r : MuteRegion} : ∀ {l : List MuteRegion},
    x ∈ insertRegion r l → x = r ∨ x ∈ l := by
  intro l
  induction l with
  | nil => simp [insertRegion]
  | cons a as ih =>
    rw [insertRegion]
    split
    · intro h
      rcases List.mem_cons.mp h with rfl | h'
      · right; exact List.mem_cons_self _ _
      · rcases ih h' with h'' | h''
        · left; exact h''
        · right; exact List.mem_cons_of_mem _ h''
    · intro h
      rcases List.mem_cons.mp h with rfl | h'
      · left; rfl
      · right; exact h'

/-- The stable sort only permutes: its members come from the input. -/
theorem mem_sortRegions {x : MuteRegion} {regs : List MuteRegion}
    (hx : x ∈ sortRegions regs) : x ∈ regs := by
  suffices h : ∀ (rs acc : List MuteRegion),
      x ∈ rs.foldl (fun a r => insertRegion r a) acc → x ∈ acc ∨ x ∈ rs by
    rcases h regs [] hx with h' | h'
    · simp at h'
    · exact h'
  intro rs
  induction rs with
  | nil => intro acc h; exact Or.inl h
  | cons r rs ih =>
    intro acc h
    rcases ih (insertRegion r acc) h with h' | h'
    · rcases mem_insertRegion h' with rfl | h''
      · exact Or.inr (List.mem_cons_self _ _)
      · exact Or.inl h''
    · exact Or.inr (List.mem_cons_of_mem _ h')

/-- Every canonical (merged) interval is in bounds when every input region
is. -/
theorem mergedRegions_inBounds {d : ℚ} (regs : List MuteRegion)
    (h : ∀ r ∈ regs, inBounds d r) : ∀ m ∈ mergedRegions regs, inBounds d m := by
  rw [mergedRegions]
  split
  · simp
  · rename_i r rs hs
    exact mergeRec_inBounds rs r (h r (mem_sortRegions (hs ▸ List.mem_cons_self _ _)))
      (fun x hx => h x (mem_sortRegions (hs ▸ List.mem_cons_of_mem _ hx)))

/-- The canonical (merged) interval list is separated by more than the
merge tolerance. -/
theorem mergedRegions_chain' (regs : List MuteRegion) :
    List.Chain' sepR (mergedRegions regs) := by
  rw [mergedRegions]
  split
  · simp
  · exact mergeRec_chain' _ _

/-- Inserting an event later than everything in the timeline appends it. -/
theorem insertEvent_append (e : AutomationEvent) : ∀ acc : List AutomationEvent,
    (∀ x ∈ acc, x.time ≤ e.time) → insertEvent e acc = acc ++ [e] := by
  intro acc
  induction acc with
  | nil => intro _; rfl
  | cons x xs ih =>
    intro h
    rw [insertEvent, if_pos (h x (List.mem_cons_self _ _)), List.cons_append,
      ih (fun y hy => h y (List.mem_cons_of_mem _ hy))]

/-- Issuing a time-nondecreasing sequence of automation calls builds the
timeline in exactly that order. -/
theorem foldl_insertEvent : ∀ es acc : List AutomationEvent,
    List.Pairwise (fun a b => a.time ≤ b.time) (acc ++ es) →
    es.foldl (fun a e => insertEvent e a) acc = acc ++ es := by
  intro es
  induction es with
  | nil => intro acc _; simp
  | cons e es ih =>
    intro acc h
    have h1 : ∀ x ∈ acc, x.time ≤ e.time := fun x hx =>
      (List.pairwise_append.mp h).2.2 x hx e (List.mem_cons_self _ _)
    rw [List.foldl_cons, insertEvent_append e acc h1, ih (acc ++ [e]) ?_]
    · simp
    · rw [List.append_assoc, List.singleton_append]
      exact h

/-- When the scheduled calls are already in time order, the resulting
timeline is the schedule itself. -/
theorem automationEvents_of_pairwise (regs : List MuteRegion) (d : ℚ)
    (h : List.Pairwise (fun a b => a.time ≤ b.time) (scheduleEvents regs d)) :
    automationEvents regs d = scheduleEvents regs d := by
  rw [automationEvents, foldl_insertEvent _ [] (by simpa using h)]
  simp

/-- For an in-bounds region the clamps in the automation calls vanish: the
four events are `(1, start - fadeTime)`, `(0, start)`, `(0, end)`,
`(1, end + fadeTime)`. -/
theorem regionEvents_eq {d : ℚ} {m : MuteRegion} (h : inBounds d m) :
    regionEvents d m =
      [.setValue 1 (m.start - fadeTime), .linearRamp 0 m.start,
       .setValue 0 m.end_, .linearRamp 1 (m.end_ + fadeTime)] := by
  obtain ⟨h1, h2, h3⟩ := h
  have e1 : max 0 (m.start - fadeTime) = m.start - fadeTime :=
    max_eq_right (by linarith)
  have e2 : min d (m.end_ + fadeTime) = m.end_ + fadeTime :=
    min_eq_right h3
  rw [regionEvents, e1, e2]
  norm_num

/-- Every automation time of an in-bounds region lies in
`[start - fadeTime, end + fadeTime]`. -/
theorem regionEvents_time_bounds {d : ℚ} {m : MuteRegion} (h : inBounds d m) :
    ∀ e ∈ regionEvents d m,
      m.start - fadeTime ≤ e.time ∧ e.time ≤ m.end_ + fadeTime := by
  have hf : (0 : ℚ) < fadeTime := by norm_num [fadeTime]
  obtain ⟨_, h2, _⟩ := id h
  rw [regionEvents_eq h]
  intro e he
  fin_cases he <;> constructor <;> simp [AutomationEvent.time] <;> linarith

/-- Separation propagates from the head of a chain to every later element. -/
theorem sepR_all : ∀ {a : MuteRegion} {L : List MuteRegion},
    List.Chain' sepR (a :: L) → (∀ m ∈ L, m.start ≤ m.end_) →
    ∀ m ∈ L, a.end_ + mergeGapTolerance < m.start := by
  intro a L
  induction L generalizing a with
  | nil => simp
  | cons b L ih =>
    intro hc hb m hm
    rw [List.chain'_cons] at hc
    rcases List.mem_cons.mp hm with rfl | hm'
    · exact hc.1
    · have h2 := ih hc.2 (fun x hx => hb x (List.mem_cons_of_mem _ hx)) m hm'
      have hb' : b.start ≤ b.end_ := hb b (List.mem_cons_self _ _)
      have ht : (0 : ℚ) < mergeGapTolerance := by norm_num [mergeGapTolerance]
      have := hc.1
      rw [sepR] at this
      linarith

/-- The automation calls for a separated, in-bounds interval list are in
time order. -/
theorem flatMap_pairwise {d : ℚ} : ∀ L : List MuteRegion,
    (∀ m ∈ L, inBounds d m) → List.Chain' sepR L →
    List.Pairwise (fun a b : AutomationEvent => a.time ≤ b.time)
      (L.flatMap (regionEvents d)) := by
  intro L
  induction L with
  | nil => simp
  | cons m L ih =>
    intro hb hc
    rw [List.flatMap_cons, List.pairwise_append]
    have hm := hb m (List.mem_cons_self _ _)
    refine ⟨?_, ih (fun x hx => hb x (List.mem_cons_of_mem _ hx)) hc.tail, ?_⟩
    · obtain ⟨h1, h2, h3⟩ := id hm
      have hf : (0 : ℚ) < fadeTime := by norm_num [fadeTime]
      rw [regionEvents_eq hm]
      refine List.pairwise_cons.mpr ⟨?_, List.pairwise_cons.mpr ⟨?_,
        List.pairwise_cons.mpr ⟨?_, List.pairwise_singleton _ _⟩⟩⟩ <;>
        intro e he <;> fin_cases he <;> simp [AutomationEvent.time] <;> linarith
    · intro a ha b hbm
      obtain ⟨m', hm', hbm'⟩ := List.mem_flatMap.mp hbm
      have hma := regionEvents_time_bounds hm a ha
      have hmb := regionEvents_time_bounds (hb m' (List.mem_cons_of_mem _ hm')) b hbm'
      have hsep := sepR_all hc
        (fun x hx => (hb x (List.mem_cons_of_mem _ hx)).2.1) m' hm'
      have h2f : 2 * fadeTime ≤ mergeGapTolerance := by
        norm_num [fadeTime, mergeGapTolerance]
      linarith [hma.2, hmb.1]

/-- Under in-bounds inputs the whole schedule of `createVolumeAutomation`
is issued in time order. -/
theorem schedule_pairwise (regs : List MuteRegion) (d : ℚ)
    (h : ∀ r ∈ regs, inBounds d r) :
    List.Pairwise (fun a b : AutomationEvent => a.time ≤ b.time)
      (scheduleEvents regs d) := by
  have hb := mergedRegions_inBounds regs h
  have hc := mergedRegions_chain' regs
  rw [scheduleEvents]
  refine List.pairwise_cons.mpr ⟨?_, flatMap_pairwise _ hb hc⟩
  intro e he
  obtain ⟨m', hm', he'⟩ := List.mem_flatMap.mp he
  have h1 := (hb m' hm').1
  have h2 := (regionEvents_time_bounds (hb m' hm') e he').1
  have h0 : (AutomationEvent.setValue 1 0).time = 0 := rfl
  show (AutomationEvent.setValue 1 0).time ≤ e.time
  rw [h0]
  linarith

/-- Under in-bounds inputs the timeline equals the schedule. -/
theorem automationEvents_sorted (regs : List MuteRegion) (d : ℚ)
    (h : ∀ r ∈ regs, inBounds d r) :
    automationEvents regs d = scheduleEvents regs d :=
  automationEvents_of_pairwise regs d (schedule_pairwise regs d h)

/-- Evaluation steps past the four automation events of an interval whose
fade-in has completed by time `T`. -/
theorem evalEvents_group_le (T v0 t0 s e : ℚ) (rest : List AutomationEvent)
    (hse : s ≤ e) (hT : e + fadeTime ≤ T) :
    evalEvents T v0 t0
        (.setValue 1 (s - fadeTime) :: .linearRamp 0 s :: .setValue 0 e ::
          .linearRamp 1 (e + fadeTime) :: rest) =
      evalEvents T 1 (e + fadeTime) rest := by
  have hf : (0 : ℚ) < fadeTime := by norm_num [fadeTime]
  rw [evalEvents, if_neg (by push_neg; linarith)]
  rw [evalEvents, if_neg (by push_neg; linarith)]
  rw [evalEvents, if_neg (by push_neg; linarith)]
  rw [evalEvents, if_neg (by push_neg; linarith)]

/-- Evaluation inside `[s, e]` of an interval's events yields gain `0`. -/
theorem evalEvents_group_inside (T v0 t0 s e : ℚ) (rest : List AutomationEvent)
    (h1 : s ≤ T) (h2 : T ≤ e) :
    evalEvents T v0 t0
        (.setValue 1 (s - fadeTime) :: .linearRamp 0 s :: .setValue 0 e ::
          .linearRamp 1 (e + fadeTime) :: rest) = 0 := by
  have hf : (0 : ℚ) < fadeTime := by norm_num [fadeTime]
  rw [evalEvents, if_neg (by push_neg; linarith)]
  rw [evalEvents, if_neg (by push_neg; linarith)]
  rcases lt_or_eq_of_le h2 with h | h
  · rw [evalEvents, if_pos h]
  · rw [evalEvents, if_neg (by push_neg; linarith)]
    rw [evalEvents, if_pos (by linarith)]
    rw [h]
    ring

/-- Evaluation strictly before an interval's fade-out keeps the incoming
value. -/
theorem evalEvents_group_before (T v0 t0 s e : ℚ) (rest : List AutomationEvent)
    (hT : T < s - fadeTime) :
    evalEvents T v0 t0
        (.setValue 1 (s - fadeTime) :: .linearRamp 0 s :: .setValue 0 e ::
          .linearRamp 1 (e + fadeTime) :: rest) = v0 := by
  rw [evalEvents, if_pos hT]

/-- Inside any interval of a separated, in-bounds list, the flattened
automation events evaluate to gain `0`. -/
theorem evalEvents_flatMap_inside {d : ℚ} : ∀ (L : List MuteRegion) (v0 t0 : ℚ),
    (∀ x ∈ L, inBounds d x) → List.Chain' sepR L →
    ∀ m ∈ L, ∀ T, m.start ≤ T → T ≤ m.end_ →
    evalEvents T v0 t0 (L.flatMap (regionEvents d)) = 0 := by
  intro L
  induction L with
  | nil => simp
  | cons a L ih =>
    intro v0 t0 hb hc m hm T hT1 hT2
    rw [List.flatMap_cons, regionEvents_eq (hb a (List.mem_cons_self _ _)),
      List.cons_append, List.cons_append, List.cons_append,
      List.singleton_append]
    rcases List.mem_cons.mp hm with rfl | hm'
    · exact evalEvents_group_inside _ _ _ _ _ _ hT1 hT2
    · have hsep := sepR_all hc
        (fun x hx => (hb x (List.mem_cons_of_mem _ hx)).2.1) m hm'
      have hfa : fadeTime < mergeGapTolerance := by
        norm_num [fadeTime, mergeGapTolerance]
      have hle : a.end_ + fadeTime ≤ T := by linarith
      rw [evalEvents_group_le T v0 t0 a.start a.end_ _
        (hb a (List.mem_cons_self _ _)).2.1 hle]
      exact ih 1 (a.end_ + fadeTime)
        (fun x hx => hb x (List.mem_cons_of_mem _ hx)) hc.tail m hm' T hT1 hT2

/-- Strictly outside every interval and its fades, the flattened automation
events evaluate to gain `1`. -/
theorem evalEvents_flatMap_outside {d : ℚ} : ∀ (L : List MuteRegion) (t0 : ℚ),
    (∀ x ∈ L, inBounds d x) → List.Chain' sepR L →
    ∀ T, (∀ m ∈ L, T < m.start - fadeTime ∨ m.end_ + fadeTime < T) →
    evalEvents T 1 t0 (L.flatMap (regionEvents d)) = 1 := by
  intro L
  induction L with
  | nil => intro t0 _ _ T _; simp [evalEvents]
  | cons a L ih =>
    intro t0 hb hc T hout
    rw [List.flatMap_cons, regionEvents_eq (hb a (List.mem_cons_self _ _)),
      List.cons_append, List.cons_append, List.cons_append,
      List.singleton_append]
    rcases hout a (List.mem_cons_self _ _) with h | h
    · exact evalEvents_group_before _ _ _ _ _ _ h
    · rw [evalEvents_group_le T 1 t0 a.start a.end_ _
        (hb a (List.mem_cons_self _ _)).2.1 (le_of_lt h)]
      exact ih (a.end_ + fadeTime)
        (fun x hx => hb x (List.mem_cons_of_mem _ hx)) hc.tail T
        (fun m hm => hout m (List.mem_cons_of_mem _ hm))

/-- Under in-bounds inputs the gain is `0` everywhere inside any canonical
(merged) interval. -/
theorem gainValue_inside (regs : List MuteRegion) (d : ℚ)
    (h : ∀ r ∈ regs, inBounds d r) {m : MuteRegion}
    (hm : m ∈ mergedRegions regs) {T : ℚ} (h1 : m.start ≤ T) (h2 : T ≤ m.end_) :
    gainValue regs d T = 0 := by
  have hb := mergedRegions_inBounds regs h
  have hc := mergedRegions_chain' regs
  have hf : (0 : ℚ) < fadeTime := by norm_num [fadeTime]
  have hs := (hb m hm).1
  rw [gainValue, automationEvents_sorted regs d h, scheduleEvents]
  rw [evalEvents, if_neg (by push_neg; linarith)]
  exact evalEvents_flatMap_inside _ 1 0 hb hc m hm T h1 h2

/-- Under in-bounds inputs the gain is `1` strictly outside every canonical
interval and its fade zones. -/
theorem gainValue_outside (regs : List MuteRegion) (d : ℚ)
    (h : ∀ r ∈ regs, inBounds d r) {T : ℚ}
    (hout : ∀ m ∈ mergedRegions regs,
      T < m.start - fadeTime ∨ m.end_ + fadeTime < T) :
    gainValue regs d T = 1 := by
  have hb := mergedRegions_inBounds regs h
  have hc := mergedRegions_chain' regs
  rw [gainValue, automationEvents_sorted regs d h, scheduleEvents]
  by_cases hT : T < 0
  · rw [evalEvents, if_pos hT]
  · rw [evalEvents, if_neg hT]
    exact evalEvents_flatMap_outside _ 0 hb hc T hout

/-- A successful render returns exactly the rendered mix. -/
theorem renderCleanAudio_ok {v inst : AudioBuffer} {regs : List MuteRegion}
    {m : AudioBuffer} (h : renderCleanAudio v inst regs = Except.ok m) :
    m = renderedMix v inst regs := by
  rw [renderCleanAudio] at h
  split at h
  · exact absurd h (by simp)
  · split at h
    · exact absurd h (by simp)
    · exact (Except.ok.inj h).symm

/-- Each sample of the rendered mix is the gain-shaped vocal contribution
plus the untouched instrumental contribution at the sample's time. -/
theorem renderedMix_sample (v inst : AudioBuffer) (regs : List MuteRegion)
    (ch i : ℕ) (hch : ch < 2) (hi : i < totalSamples v inst) :
    mixSample (renderedMix v inst regs) ch i =
      vocalContributionAtTime v regs (mixDuration v inst) ch
          ((i : ℚ) / (v.sampleRate : ℚ))
        + instrContributionAtTime inst ch ((i : ℚ) / (v.sampleRate : ℚ)) := by
  rw [mixSample, renderedMix]
  simp only [List.getD_eq_getElem?_getD, List.getElem?_map,
    List.getElem?_range hch, List.getElem?_range hi, Option.map_some',
    Option.getD_some]

/-- Playback at the exact sample time `i / rate` of a buffer recorded at
the context rate reads sample `i` directly. -/
theorem sampleAtTime_natIndex (data : List ℚ) (r : ℕ) (hr : r ≠ 0) (i : ℕ) :
    sampleAtTime data r ((i : ℚ) / (r : ℚ)) = sampleAt data i := by
  have hr' : ((r : ℕ) : ℚ) ≠ 0 := Nat.cast_ne_zero.mpr hr
  rw [sampleAtTime]
  simp only [div_mul_cancel₀ _ hr']
  rw [show ((i : ℕ) : ℚ) = ((i : ℤ) : ℚ) by push_cast; ring]
  rw [Int.floor_intCast]
  simp

/-- Reading past the end of a channel yields silence. -/
theorem sampleAt_of_le (data : List ℚ) (i : ℕ) (h : data.length ≤ i) :
    sampleAt data i = 0 := by
  rw [sampleAt, List.getD_eq_getElem?_getD, List.getElem?_eq_none h]
  rfl

/-- In a well-formed buffer the channel feeding any output channel is no
longer than the buffer. -/
theorem sourceChannel_length_le (b : AudioBuffer) (hw : wellFormed b)
    (ch : ℕ) : (sourceChannel b ch).length ≤ bufLength b := by
  rw [sourceChannel]
  split
  · rename_i h1
    cases hb : b.channels with
    | nil => rw [hb] at h1; simp at h1
    | cons c cs =>
      rw [List.headD_cons]
      exact le_of_eq (hw c (by rw [hb]; exact List.mem_cons_self _ _))
  · rcases lt_or_ge ch b.channels.length with h | h
    · rw [List.getD_eq_getElem?_getD, List.getElem?_eq_getElem h,
        Option.getD_some]
      exact le_of_eq (hw _ (List.getElem_mem h))
    · rw [List.getD_eq_getElem?_getD, List.getElem?_eq_none h]
      simp

set_option maxRecDepth 4000 in
/-- C1, counterexample: the silence property fails as stated.  For the
single input region `[0, 0.01]` (a legal `MuteRegion`: `start ≥ 0`,
`end > start`) rendered against a 0.04s instrumental at 44100 Hz, the
canonical merged interval is `[0, 0.01]` itself, but the vocal contribution
at its midpoint `t = 0.005` is the full vocal sample (gain 1), not 0: the
fade-out start is clamped to `0`, so the ramp to `0` completes only at
`t = 0.03`, while the `setValueAtTime(0, muteEnd - fadeTime)` event lands at
`t = 0.01`, leaving the gain at `1` on all of `[0, 0.01)`. -/
theorem c1_silence_counterexample :
    mergedRegions [⟨0, 1/100⟩] = [⟨0, 1/100⟩] ∧
    mixDuration ⟨8000, [List.replicate 41 1]⟩
        ⟨8000, [List.replicate 320 0]⟩ = 1/25 ∧
    vocalContributionAtTime ⟨8000, [List.replicate 41 1]⟩ [⟨0, 1/100⟩]
        (1/25) 0 ((0 + 1/100) / 2) = 1 ∧
    ((1 : ℚ) ≠ 0) := by
  refine ⟨by decide, by decide, by decide, by norm_num⟩

/-- C1 (amended): provided every input region lies fully inside the track
with room for the 30ms fades (`fadeTime ≤ start ≤ end` and
`end + fadeTime ≤ duration`), the vocal contribution of the rendered mix at
the midpoint `(s+e)/2` of every canonical (merged) mute interval `[s,e]` is
exactly `0`, and at every time strictly outside all merged intervals and
their fade zones the vocal contribution is the original vocal sample
unscaled (gain 1). -/
theorem c1_silence_property (regs : List MuteRegion) (d : ℚ) (v : AudioBuffer)
    (ch : ℕ) (hreg : ∀ r ∈ regs, inBounds d r) :
    (∀ m ∈ mergedRegions regs,
      vocalContributionAtTime v regs d ch ((m.start + m.end_) / 2) = 0) ∧
    (∀ t : ℚ, (∀ m ∈ mergedRegions regs,
        t < m.start - fadeTime ∨ m.end_ + fadeTime < t) →
      vocalContributionAtTime v regs d ch t =
        sampleAtTime (sourceChannel v ch) v.sampleRate t) := by
  constructor
  · intro m hm
    have hb := mergedRegions_inBounds regs hreg m hm
    have h1 : m.start ≤ (m.start + m.end_) / 2 := by linarith [hb.2.1]
    have h2 : (m.start + m.end_) / 2 ≤ m.end_ := by linarith [hb.2.1]
    rw [vocalContributionAtTime, gainValue_inside regs d hreg hm h1 h2,
      zero_mul]
  · intro t ht
    rw [vocalContributionAtTime, gainValue_outside regs d hreg ht, one_mul]

/-- C1, witness: the amended silence property at the concrete region
`[1, 2]` inside a 3s render. -/
theorem c1_silence_property_witness :
    inBounds 3 ⟨1, 2⟩ ∧
    vocalContributionAtTime ⟨8000, [[1]]⟩ [⟨1, 2⟩] 3 0 ((3 : ℚ) / 2) = 0 ∧
    vocalContributionAtTime ⟨8000, [[1]]⟩ [⟨1, 2⟩] 3 0 (1 / 2) =
      sampleAtTime (sourceChannel ⟨8000, [[1]]⟩ 0) 8000 (1 / 2) := by
  refine ⟨by decide, ?_, ?_⟩
  · have h := (c1_silence_property [⟨1, 2⟩] 3 ⟨8000, [[1]]⟩ 0 (by decide)).1
      ⟨1, 2⟩ (by decide)
    have e : ((1 : ℚ) + 2) / 2 = 3 / 2 := by norm_num
    rw [e] at h
    exact h
  · exact (c1_silence_property [⟨1, 2⟩] 3 ⟨8000, [[1]]⟩ 0 (by decide)).2
      (1 / 2) (by decide)

/-- C2: instrumental continuity.  Every output sample decomposes as
gain-shaped vocal contribution plus instrumental contribution; the
instrumental part is independent of the mute-region list (renders with any
two region lists differ only in the vocal term), and at matching sample
rates it is the unmodified instrumental sample. -/
theorem c2_instrumental_continuity (v inst : AudioBuffer)
    (regs regs' : List MuteRegion) (m m' : AudioBuffer) (ch i : ℕ)
    (hok : renderCleanAudio v inst regs = Except.ok m)
    (hok' : renderCleanAudio v inst regs' = Except.ok m')
    (hch : ch < 2) (hi : i < totalSamples v inst) :
    mixSample m ch i
        - vocalContributionAtTime v regs (mixDuration v inst) ch
            ((i : ℚ) / (v.sampleRate : ℚ))
      = mixSample m' ch i
        - vocalContributionAtTime v regs' (mixDuration v inst) ch
            ((i : ℚ) / (v.sampleRate : ℚ)) ∧
    mixSample m ch i
      = vocalContributionAtTime v regs (mixDuration v inst) ch
          ((i : ℚ) / (v.sampleRate : ℚ))
        + instrContributionAtTime inst ch ((i : ℚ) / (v.sampleRate : ℚ)) ∧
    (inst.sampleRate = v.sampleRate → v.sampleRate ≠ 0 →
      instrContributionAtTime inst ch ((i : ℚ) / (v.sampleRate : ℚ))
        = sampleAt (sourceChannel inst ch) i) := by
  have e1 := renderCleanAudio_ok hok
  have e2 := renderCleanAudio_ok hok'
  subst e1
  subst e2
  refine ⟨?_, renderedMix_sample v inst regs ch i hch hi, ?_⟩
  · rw [renderedMix_sample v inst regs ch i hch hi,
      renderedMix_sample v inst regs' ch i hch hi]
    ring
  · intro hr hr0
    rw [instrContributionAtTime, hr]
    exact sampleAtTime_natIndex _ _ hr0 i

/-- C2, witness: exercised at a 1-second stereo-from-mono render at rate 2
with and without a mute region. -/
theorem c2_instrumental_continuity_witness :
    renderCleanAudio ⟨2, [[1, 1]]⟩ ⟨2, [[1, 1]]⟩ [⟨2, 3⟩]
      = Except.ok (renderedMix ⟨2, [[1, 1]]⟩ ⟨2, [[1, 1]]⟩ [⟨2, 3⟩]) ∧
    renderCleanAudio ⟨2, [[1, 1]]⟩ ⟨2, [[1, 1]]⟩ []
      = Except.ok (renderedMix ⟨2, [[1, 1]]⟩ ⟨2, [[1, 1]]⟩ []) ∧
    mixSample (renderedMix ⟨2, [[1, 1]]⟩ ⟨2, [[1, 1]]⟩ [⟨2, 3⟩]) 0 1
        - vocalContributionAtTime ⟨2, [[1, 1]]⟩ [⟨2, 3⟩]
            (mixDuration ⟨2, [[1, 1]]⟩ ⟨2, [[1, 1]]⟩) 0 ((1 : ℚ) / 2)
      = mixSample (renderedMix ⟨2, [[1, 1]]⟩ ⟨2, [[1, 1]]⟩ []) 0 1
        - vocalContributionAtTime ⟨2, [[1, 1]]⟩ []
            (mixDuration ⟨2, [[1, 1]]⟩ ⟨2, [[1, 1]]⟩) 0 ((1 : ℚ) / 2) := by
  refine ⟨rfl, rfl, ?_⟩
  have h := (c2_instrumental_continuity ⟨2, [[1, 1]]⟩ ⟨2, [[1, 1]]⟩ [⟨2, 3⟩] []
    (renderedMix ⟨2, [[1, 1]]⟩ ⟨2, [[1, 1]]⟩ [⟨2, 3⟩])
    (renderedMix ⟨2, [[1, 1]]⟩ ⟨2, [[1, 1]]⟩ []) 0 1 rfl rfl
    (by decide) (by decide)).1
  exact h

/-- C3: length correctness.  A successful render has exactly
`ceil(max(vocals.duration, instrumental.duration) * sampleRate)` samples in
each of its 2 channels, and the shorter source contributes silence beyond
its own length (no looping, no extrapolation). -/
theorem c3_length_correctness (v inst : AudioBuffer) (regs : List MuteRegion)
    (m : AudioBuffer) (hok : renderCleanAudio v inst regs = Except.ok m) :
    bufLength m =
      (⌈max (duration v) (duration inst) * (v.sampleRate : ℚ)⌉).toNat ∧
    m.channels.length = 2 ∧
    (inst.sampleRate = v.sampleRate → v.sampleRate ≠ 0 → wellFormed inst →
      ∀ ch i : ℕ, bufLength inst ≤ i →
        instrContributionAtTime inst ch ((i : ℚ) / (v.sampleRate : ℚ)) = 0) ∧
    (v.sampleRate ≠ 0 → wellFormed v →
      ∀ ch i : ℕ, bufLength v ≤ i →
        sampleAtTime (sourceChannel v ch) v.sampleRate
          ((i : ℚ) / (v.sampleRate : ℚ)) = 0) := by
  have e := renderCleanAudio_ok hok
  subst e
  refine ⟨?_, ?_, ?_, ?_⟩
  · rw [bufLength, renderedMix]
    rw [show List.range 2 = [0, 1] from rfl, List.map_cons, List.headD_cons]
    rw [List.length_map, List.length_range]
    rfl
  · rw [renderedMix]
    show ((List.range 2).map _).length = 2
    rw [List.length_map, List.length_range]
  · intro hr hr0 hw ch i hi
    rw [instrContributionAtTime, hr, sampleAtTime_natIndex _ _ hr0 i]
    exact sampleAt_of_le _ i
      (le_trans (sourceChannel_length_le inst hw ch) hi)
  · intro hr0 hw ch i hi
    rw [sampleAtTime_natIndex _ _ hr0 i]
    exact sampleAt_of_le _ i (le_trans (sourceChannel_length_le v hw ch) hi)

/-- C3, witness: a 10.0s vocal and a 12.0s instrumental at 44100 Hz render
to exactly `ceil(12.0 * 44100) = 529200` samples. -/
theorem c3_length_correctness_witness :
    renderCleanAudio ⟨44100, [List.replicate 441000 0, List.replicate 441000 0]⟩
        ⟨44100, [List.replicate 529200 0, List.replicate 529200 0]⟩ []
      = Except.ok (renderedMix
          ⟨44100, [List.replicate 441000 0, List.replicate 441000 0]⟩
          ⟨44100, [List.replicate 529200 0, List.replicate 529200 0]⟩ []) ∧
    bufLength (renderedMix
        ⟨44100, [List.replicate 441000 0, List.replicate 441000 0]⟩
        ⟨44100, [List.replicate 529200 0, List.replicate 529200 0]⟩ []) = 529200 := by
  have hd1 : duration ⟨44100, [List.replicate 441000 0, List.replicate 441000 0]⟩
      = 10 := by
    rw [duration, bufLength, List.headD_cons, List.length_replicate]
    norm_num
  have hd2 : duration ⟨44100, [List.replicate 529200 0, List.replicate 529200 0]⟩
      = 12 := by
    rw [duration, bufLength, List.headD_cons, List.length_replicate]
    norm_num
  have hceil : (⌈max (duration ⟨44100, [List.replicate 441000 0, List.replicate 441000 0]⟩)
      (duration ⟨44100, [List.replicate 529200 0, List.replicate 529200 0]⟩)
        * ((44100 : ℕ) : ℚ)⌉).toNat = 529200 := by
    rw [hd1, hd2, max_eq_right (by norm_num : (10 : ℚ) ≤ 12)]
    norm_num
    rfl
  have htot : totalSamples ⟨44100, [List.replicate 441000 0, List.replicate 441000 0]⟩
      ⟨44100, [List.replicate 529200 0, List.replicate 529200 0]⟩ = 529200 := by
    rw [totalSamples, mixDuration]
    exact hceil
  have hneg : hasNegativeTime []
      (mixDuration ⟨44100, [List.replicate 441000 0, List.replicate 441000 0]⟩
        ⟨44100, [List.replicate 529200 0, List.replicate 529200 0]⟩) = false := rfl
  have hok : renderCleanAudio
      ⟨44100, [List.replicate 441000 0, List.replicate 441000 0]⟩
      ⟨44100, [List.replicate 529200 0, List.replicate 529200 0]⟩ []
      = Except.ok (renderedMix
          ⟨44100, [List.replicate 441000 0, List.replicate 441000 0]⟩
          ⟨44100, [List.replicate 529200 0, List.replicate 529200 0]⟩ []) := by
    rw [renderCleanAudio, if_neg (by rw [htot]; norm_num),
      if_neg (by rw [hneg]; simp)]
  refine ⟨hok, ?_⟩
  have h := (c3_length_correctness _ _ [] _ hok).1
  rw [h, ← mixDuration]
  rw [show (⟨44100, [List.replicate 441000 0, List.replicate 441000 0]⟩ :
    AudioBuffer).sampleRate = 44100 from rfl]
  rw [totalSamples] at htot
  exact htot

/-- C4, counterexample: the sample-rate precondition does not exist in the
code.  `renderCleanAudio` performs no sample-rate comparison: with a
44100 Hz vocal buffer and a 48000 Hz instrumental buffer it succeeds
(resolving, not rejecting), rendering at the vocals' rate. -/
theorem c4_rate_mismatch_counterexample :
    isOk (renderCleanAudio ⟨44100, [[0]]⟩ ⟨48000, [[0]]⟩ []) = true ∧
    (⟨44100, [[0]]⟩ : AudioBuffer).sampleRate ≠
      (⟨48000, [[0]]⟩ : AudioBuffer).sampleRate := by
  exact ⟨rfl, by decide⟩

/-- C4 (amended): `renderCleanAudio` never checks sample rates.  Whenever
the offline context can be built (non-zero length) and the automation times
are non-negative, it succeeds for *any* pair of buffer rates — a mismatch is
silently coerced by the audio context's resampling, not raised — and the
output is produced at the vocals buffer's sample rate. -/
theorem c4_no_rate_check (v inst : AudioBuffer) (regs : List MuteRegion)
    (htot : totalSamples v inst ≠ 0)
    (hneg : hasNegativeTime regs (mixDuration v inst) = false) :
    ∃ m : AudioBuffer, renderCleanAudio v inst regs = Except.ok m ∧
      m.sampleRate = v.sampleRate := by
  refine ⟨renderedMix v inst regs, ?_, rfl⟩
  rw [renderCleanAudio, if_neg htot, if_neg (by rw [hneg]; simp)]

/-- C4, witness: the amended statement at the mismatched 44100/48000 pair. -/
theorem c4_no_rate_check_witness :
    totalSamples ⟨44100, [[0]]⟩ ⟨48000, [[0]]⟩ ≠ 0 ∧
    hasNegativeTime [] (mixDuration ⟨44100, [[0]]⟩ ⟨48000, [[0]]⟩) = false ∧
    isOk (renderCleanAudio ⟨44100, [[0]]⟩ ⟨48000, [[0]]⟩ []) = true := by
  refine ⟨by decide, by decide, ?_⟩
  obtain ⟨m, hm, -⟩ :=
    c4_no_rate_check ⟨44100, [[0]]⟩ ⟨48000, [[0]]⟩ [] (by decide) (by decide)
  rw [hm]
  rfl

set_option maxRecDepth 8000 in
/-- C5, counterexample: a zero-length region is *not* dropped.  With a
0.08s vocal of ones and a silent instrumental at 8000 Hz, adding the
degenerate region `[0.05, 0.05]` changes the render (output sample 400, at
`t = 0.05`, is `0` instead of `1`): the region survives normalization and
schedules a fade-out/fade-in pair around `t = 0.05`.  The render still
succeeds. -/
theorem c5_degenerate_counterexample :
    renderCleanAudio ⟨8000, [List.replicate 640 1]⟩
        ⟨8000, [List.replicate 640 0]⟩ [⟨1/20, 1/20⟩]
      ≠ renderCleanAudio ⟨8000, [List.replicate 640 1]⟩
        ⟨8000, [List.replicate 640 0]⟩ [] ∧
    isOk (renderCleanAudio ⟨8000, [List.replicate 640 1]⟩
        ⟨8000, [List.replicate 640 0]⟩ [⟨1/20, 1/20⟩]) = true := by
  constructor
  · intro h
    have h1 : renderCleanAudio ⟨8000, [List.replicate 640 1]⟩
        ⟨8000, [List.replicate 640 0]⟩ [⟨1/20, 1/20⟩]
        = Except.ok (renderedMix ⟨8000, [List.replicate 640 1]⟩
            ⟨8000, [List.replicate 640 0]⟩ [⟨1/20, 1/20⟩]) := rfl
    have h2 : renderCleanAudio ⟨8000, [List.replicate 640 1]⟩
        ⟨8000, [List.replicate 640 0]⟩ []
        = Except.ok (renderedMix ⟨8000, [List.replicate 640 1]⟩
            ⟨8000, [List.replicate 640 0]⟩ []) := rfl
    rw [h1, h2] at h
    have h3 := Except.ok.inj h
    have h4 := congrArg (fun b => mixSample b 0 400) h3
    have e1 : mixSample (renderedMix ⟨8000, [List.replicate 640 1]⟩
        ⟨8000, [List.replicate 640 0]⟩ [⟨1/20, 1/20⟩]) 0 400 = 0 := by decide
    have e2 : mixSample (renderedMix ⟨8000, [List.replicate 640 1]⟩
        ⟨8000, [List.replicate 640 0]⟩ []) 0 400 = 1 := by decide
    simp only at h4
    rw [e1, e2] at h4
    exact absurd h4 (by norm_num)
  · rfl

/-- C5 (amended): a degenerate (zero-length) region is *not* dropped by the
normalization step: it survives merging unchanged, and (when it sits inside
the track with room for the fades) it forces the vocal gain to `0` at the
region's time, so it does affect the render; the render itself does not
fail because of it. -/
theorem c5_degenerate_kept (r : MuteRegion) (d : ℚ)
    (h0 : r.end_ = r.start) (h1 : fadeTime ≤ r.start)
    (h2 : r.start + fadeTime ≤ d) :
    mergedRegions [r] = [r] ∧ gainValue [r] d r.start = 0 := by
  have hb : ∀ x ∈ [r], inBounds d x := by
    intro x hx
    rw [List.mem_singleton] at hx
    subst hx
    exact ⟨h1, le_of_eq h0.symm, by rw [h0]; exact h2⟩
  have hmem : r ∈ mergedRegions [r] := by
    rw [show mergedRegions [r] = [r] from rfl]
    exact List.mem_singleton_self r
  exact ⟨rfl, gainValue_inside [r] d hb hmem (le_refl r.start) (le_of_eq h0.symm)⟩

/-- C5, witness: the zero-length region `[1, 1]` inside a 2s duration. -/
theorem c5_degenerate_kept_witness :
    ((⟨1, 1⟩ : MuteRegion).end_ = (⟨1, 1⟩ : MuteRegion).start ∧
      fadeTime ≤ (⟨1, 1⟩ : MuteRegion).start ∧
      (⟨1, 1⟩ : MuteRegion).start + fadeTime ≤ 2) ∧
    mergedRegions [⟨1, 1⟩] = [⟨1, 1⟩] ∧ gainValue [⟨1, 1⟩] 2 1 = 0 := by
  exact ⟨⟨rfl, by decide, by decide⟩,
    c5_degenerate_kept ⟨1, 1⟩ 2 rfl (by decide) (by decide)⟩

/-- C6, counterexample: the envelope builder does not emit the four points
the claim describes.  For the single canonical interval `[1, 2]` in a 10s
track the code emits `(0,1), (0.97,1), (1,0), (2,0), (2.03,1)` — the gain
stays `0` until `intervalEnd` and fades back in by `intervalEnd + fadeTime`
— whereas the claim's points are `(0,1), (0.97,1), (1,0), (1.97,0), (2,1)`
(fade-in completing *at* `intervalEnd`). -/
theorem c6_envelope_counterexample :
    controlPoints [⟨1, 2⟩] 10 =
      [(0, 1), (97/100, 1), (1, 0), (2, 0), (203/100, 1)] ∧
    claimedControlPoints [⟨1, 2⟩] 10 fadeTime =
      [(0, 1), (97/100, 1), (1, 0), (197/100, 0), (2, 1)] ∧
    controlPoints [⟨1, 2⟩] 10 ≠ claimedControlPoints [⟨1, 2⟩] 10 fadeTime := by
  refine ⟨by decide, by decide, by decide⟩

/-- C6 (amended): for every canonical interval `[s,e]` the builder emits,
in order, exactly the four control points
`(max(0, s - fadeTime), 1)`, `(max(0, s - fadeTime) + fadeTime, 0)`,
`(min(d, e + fadeTime) - fadeTime, 0)`, `(min(d, e + fadeTime), 1)` — i.e.
`(s - fadeTime, 1), (s, 0), (e, 0), (e + fadeTime, 1)` with the fade-out
start clamped below at `0` and the fade-in end clamped above at the total
duration — preceded by a leading `(0, 1)` point that is always emitted,
whether or not the first interval starts at `0`. -/
theorem c6_envelope_points (regs : List MuteRegion) (d : ℚ) :
    controlPoints regs d =
      (0, 1) :: (mergedRegions regs).flatMap (fun m =>
        [(max 0 (m.start - fadeTime), 1),
         (max 0 (m.start - fadeTime) + fadeTime, 0),
         (min d (m.end_ + fadeTime) - fadeTime, 0),
         (min d (m.end_ + fadeTime), 1)]) := by
  rw [controlPoints, scheduleEvents, List.map_cons, List.map_flatMap]
  rfl

/-- C7: merge correctness.  The normalizer keeps a current interval,
extends it to `max(current.end, next.end)` whenever the next region starts
within `mergeGapTolerance` of the current end, and otherwise closes it; in
particular `[(1.0, 1.2), (1.25, 1.4)]` with tolerance `0.1` merge into the
single interval `[1.0, 1.4]`. -/
theorem c7_merge_correctness :
    mergedRegions [⟨1, 6/5⟩, ⟨5/4, 7/5⟩] = [⟨1, 7/5⟩] ∧
    (∀ (cur r : MuteRegion) (rs : List MuteRegion),
      mergeRec cur (r :: rs) =
        if r.start ≤ cur.end_ + mergeGapTolerance then
          mergeRec ⟨cur.start, max cur.end_ r.end_⟩ rs
        else cur :: mergeRec r rs) ∧
    mergeGapTolerance = 1/10 := by
  exact ⟨by decide, fun cur r rs => rfl, by norm_num [mergeGapTolerance]⟩

/-- For a stereo buffer the interleaver writes `left[i]` to slot `2i` and
`right[i]` to slot `2i+1` of a `length * 2` array. -/
theorem interleaveChannels_stereo (sr : ℕ) (l r : List ℚ) :
    interleaveChannels ⟨sr, [l, r]⟩ =
      (List.range (l.length * 2)).map fun j =>
        if j < 2 * l.length then
          if j % 2 = 0 then sampleAt l (j / 2) else sampleAt r (j / 2)
        else 0 := rfl

/-- Each encoded sample contributes exactly two bytes. -/
theorem flatten_map_int16_length (xs : List ℚ) :
    ((xs.map fun x => int16Bytes (pcm16 x)).flatten).length = 2 * xs.length := by
  induction xs with
  | nil => simp
  | cons x xs ih =>
    rw [List.map_cons, List.flatten_cons, List.length_append, ih]
    rw [show (int16Bytes (pcm16 x)).length = 2 from rfl]
    rw [List.length_cons]
    ring

/-- C8: PCM conversion.  The byte payload after the 44-byte header is the
interleaved sample list, each sample clamped to `[-1, 1]`, scaled by the
negative extreme `32768` when negative and the positive extreme `32767`
otherwise, truncated, and written as little-endian two's-complement 16-bit
integers; interleaving is frame-wise `left, right, left, right, …`. -/
theorem c8_pcm_conversion (b : AudioBuffer) (l r : List ℚ)
    (hch : b.channels = [l, r]) :
    (encodeWAV b).drop 44 =
      ((interleaveChannels b).map fun x => int16Bytes (pcm16 x)).flatten ∧
    (∀ i : ℕ, i < l.length →
      (interleaveChannels b).getD (2 * i) 0 = l.getD i 0 ∧
      (interleaveChannels b).getD (2 * i + 1) 0 = r.getD i 0) ∧
    (∀ x : ℚ,
      pcm16 x = ratTrunc (if max (-1) (min 1 x) < 0
        then max (-1) (min 1 x) * 32768 else max (-1) (min 1 x) * 32767)) ∧
    pcm16 (-1) = -32768 ∧ pcm16 1 = 32767 ∧
    (∀ n : ℤ, (int16Bytes n).getD 0 0 + 256 * (int16Bytes n).getD 1 0
      = (n % 65536).toNat) := by
  obtain ⟨sr, chs⟩ := b
  replace hch : chs = [l, r] := hch
  subst hch
  refine ⟨rfl, ?_, fun x => rfl, by decide, by decide, ?_⟩
  · intro i hi
    constructor
    · rw [interleaveChannels_stereo]
      rw [List.getD_eq_getElem?_getD, List.getElem?_map,
        List.getElem?_range (by omega : 2 * i < l.length * 2)]
      simp only [Option.map_some', Option.getD_some]
      rw [if_pos (by omega : 2 * i < 2 * l.length),
        if_pos (by omega : 2 * i % 2 = 0),
        show 2 * i / 2 = i by omega]
      rfl
    · rw [interleaveChannels_stereo]
      rw [List.getD_eq_getElem?_getD, List.getElem?_map,
        List.getElem?_range (by omega : 2 * i + 1 < l.length * 2)]
      simp only [Option.map_some', Option.getD_some]
      rw [if_pos (by omega : 2 * i + 1 < 2 * l.length),
        if_neg (by omega : ¬ (2 * i + 1) % 2 = 0),
        show (2 * i + 1) / 2 = i by omega]
      rfl
  · intro n
    show (n % 65536).toNat % 256 + 256 * ((n % 65536).toNat / 256)
      = (n % 65536).toNat
    omega

/-- C8, witness: the payload identity and interleaving at the concrete
stereo buffer `⟨44100, [[1/2], [-(3/2)]]⟩`. -/
theorem c8_pcm_conversion_witness :
    ((⟨44100, [[1/2], [-(3/2)]]⟩ : AudioBuffer).channels = [[1/2], [-(3/2)]]) ∧
    (encodeWAV ⟨44100, [[1/2], [-(3/2)]]⟩).drop 44 =
      ((interleaveChannels ⟨44100, [[1/2], [-(3/2)]]⟩).map
        fun x => int16Bytes (pcm16 x)).flatten ∧
    (interleaveChannels ⟨44100, [[1/2], [-(3/2)]]⟩).getD 0 0 = 1/2 ∧
    (interleaveChannels ⟨44100, [[1/2], [-(3/2)]]⟩).getD 1 0 = -(3/2) := by
  have h := c8_pcm_conversion ⟨44100, [[1/2], [-(3/2)]]⟩ [1/2] [-(3/2)] rfl
  obtain ⟨h1, h2, -, -, -, -⟩ := h
  obtain ⟨h3, h4⟩ := h2 0 (by norm_num)
  exact ⟨rfl, h1, by simpa using h3, by simpa using h4⟩

/-- The WAV header is 44 bytes long. -/
theorem wavHeader_length (nc sr ns : ℕ) : (wavHeader nc sr ns).length = 44 := rfl

/-- For a stereo buffer the encoder output is header plus encoded
interleaved payload. -/
theorem encodeWAV_stereo (sr : ℕ) (l r : List ℚ) :
    encodeWAV ⟨sr, [l, r]⟩ =
      wavHeader 2 sr l.length
        ++ ((interleaveChannels ⟨sr, [l, r]⟩).map
          fun x => int16Bytes (pcm16 x)).flatten := rfl

/-- RIFF size field (offset 4). -/
theorem readLE_wavHeader_4 (nc sr ns : ℕ) (rest : List ℕ) :
    readLE (wavHeader nc sr ns ++ rest) 4 4
      = (44 + ns * nc * 2 - 8) % 256
        + 256 * ((44 + ns * nc * 2 - 8) / 256 % 256
        + 256 * ((44 + ns * nc * 2 - 8) / 65536 % 256
        + 256 * ((44 + ns * nc * 2 - 8) / 16777216 % 256 + 256 * 0))) := by
  simp only [wavHeader, u32Bytes, u16Bytes, List.cons_append, List.nil_append]
  simp [readLE, byteAt]

/-- Audio format tag field (offset 20). -/
theorem readLE_wavHeader_20 (nc sr ns : ℕ) (rest : List ℕ) :
    readLE (wavHeader nc sr ns ++ rest) 20 2 = 1 := by
  simp only [wavHeader, u32Bytes, u16Bytes, List.cons_append, List.nil_append]
  simp [readLE, byteAt]

/-- Channel count field (offset 22). -/
theorem readLE_wavHeader_22 (nc sr ns : ℕ) (rest : List ℕ) :
    readLE (wavHeader nc sr ns ++ rest) 22 2
      = nc % 256 + 256 * (nc / 256 % 256 + 256 * 0) := by
  simp only [wavHeader, u32Bytes, u16Bytes, List.cons_append, List.nil_append]
  simp [readLE, byteAt]

/-- Sample rate field (offset 24). -/
theorem readLE_wavHeader_24 (nc sr ns : ℕ) (rest : List ℕ) :
    readLE (wavHeader nc sr ns ++ rest) 24 4
      = sr % 256 + 256 * (sr / 256 % 256 + 256 * (sr / 65536 % 256
        + 256 * (sr / 16777216 % 256 + 256 * 0))) := by
  simp only [wavHeader, u32Bytes, u16Bytes, List.cons_append, List.nil_append]
  simp [readLE, byteAt]

/-- Byte rate field (offset 28). -/
theorem readLE_wavHeader_28 (nc sr ns : ℕ) (rest : List ℕ) :
    readLE (wavHeader nc sr ns ++ rest) 28 4
      = sr * nc * 2 % 256 + 256 * (sr * nc * 2 / 256 % 256
        + 256 * (sr * nc * 2 / 65536 % 256
        + 256 * (sr * nc * 2 / 16777216 % 256 + 256 * 0))) := by
  simp only [wavHeader, u32Bytes, u16Bytes, List.cons_append, List.nil_append]
  simp [readLE, byteAt]

/-- Block align field (offset 32). -/
theorem readLE_wavHeader_32 (nc sr ns : ℕ) (rest : List ℕ) :
    readLE (wavHeader nc sr ns ++ rest) 32 2
      = nc * 2 % 256 + 256 * (nc * 2 / 256 % 256 + 256 * 0) := by
  simp only [wavHeader, u32Bytes, u16Bytes, List.cons_append, List.nil_append]
  simp [readLE, byteAt]

/-- Bits-per-sample field (offset 34). -/
theorem readLE_wavHeader_34 (nc sr ns : ℕ) (rest : List ℕ) :
    readLE (wavHeader nc sr ns ++ rest) 34 2 = 16 := by
  simp only [wavHeader, u32Bytes, u16Bytes, List.cons_append, List.nil_append]
  simp [readLE, byteAt]

/-- Data-chunk size field (offset 40). -/
theorem readLE_wavHeader_40 (nc sr ns : ℕ) (rest : List ℕ) :
    readLE (wavHeader nc sr ns ++ rest) 40 4
      = ns * nc * 2 % 256 + 256 * (ns * nc * 2 / 256 % 256
        + 256 * (ns * nc * 2 / 65536 % 256
        + 256 * (ns * nc * 2 / 16777216 % 256 + 256 * 0))) := by
  simp only [wavHeader, u32Bytes, u16Bytes, List.cons_append, List.nil_append]
  simp [readLE, byteAt]

/-- C10: WAV container consistency.  For a 2-channel buffer (the shape
`renderCleanAudio` always produces) the encoder emits exactly
`44 + 2 * numChannels * numSamples` bytes, and the header fields read back
little-endian are mutually consistent with the payload: RIFF size
`total - 8`, PCM format tag `1`, channel count `2`, the buffer's sample
rate, byte rate `sampleRate * numChannels * 2`, block align
`numChannels * 2`, bits per sample `16`, and data-chunk size
`2 * numChannels * numSamples`. -/
theorem c10_wav_header (b : AudioBuffer) (l r : List ℚ)
    (hch : b.channels = [l, r])
    (hdata : 36 + 4 * l.length < 4294967296)
    (hrate : b.sampleRate * 4 < 4294967296) :
    (encodeWAV b).length = 44 + 4 * l.length ∧
    readLE (encodeWAV b) 4 4 = 36 + 4 * l.length ∧
    readLE (encodeWAV b) 20 2 = 1 ∧
    readLE (encodeWAV b) 22 2 = 2 ∧
    readLE (encodeWAV b) 24 4 = b.sampleRate ∧
    readLE (encodeWAV b) 28 4 = b.sampleRate * 4 ∧
    readLE (encodeWAV b) 32 2 = 4 ∧
    readLE (encodeWAV b) 34 2 = 16 ∧
    readLE (encodeWAV b) 40 4 = 4 * l.length := by
  obtain ⟨sr, chs⟩ := b
  replace hch : chs = [l, r] := hch
  subst hch
  replace hrate : sr * 4 < 4294967296 := hrate
  rw [encodeWAV_stereo]
  dsimp only
  have hpay : (((interleaveChannels ⟨sr, [l, r]⟩).map
      fun x => int16Bytes (pcm16 x)).flatten).length = 2 * (l.length * 2) := by
    rw [flatten_map_int16_length, interleaveChannels_stereo,
      List.length_map, List.length_range]
  refine ⟨?_, ?_, ?_, ?_, ?_, ?_, ?_, ?_, ?_⟩
  · rw [List.length_append, wavHeader_length, hpay]
    omega
  · rw [readLE_wavHeader_4]
    omega
  · rw [readLE_wavHeader_20]
  · rw [readLE_wavHeader_22]
  · rw [readLE_wavHeader_24]
    omega
  · rw [readLE_wavHeader_28]
    omega
  · rw [readLE_wavHeader_32]
  · rw [readLE_wavHeader_34]
  · rw [readLE_wavHeader_40]
    omega

/-- C10, witness: the header of the encoded one-frame stereo buffer at
44100 Hz. -/
theorem c10_wav_header_witness :
    (36 + 4 * ([(1 : ℚ)/2]).length < 4294967296) ∧
    ((⟨44100, [[1/2], [0]]⟩ : AudioBuffer).sampleRate * 4 < 4294967296) ∧
    (encodeWAV ⟨44100, [[1/2], [0]]⟩).length = 44 + 4 * 1 ∧
    readLE (encodeWAV ⟨44100, [[1/2], [0]]⟩) 24 4 = 44100 ∧
    readLE (encodeWAV ⟨44100, [[1/2], [0]]⟩) 40 4 = 4 := by
  have h := c10_wav_header ⟨44100, [[1/2], [0]]⟩ [1/2] [0] rfl
    (by norm_num) (by norm_num)
  obtain ⟨h1, -, -, -, h24, -, -, -, h40⟩ := h
  exact ⟨by norm_num, by norm_num, by simpa using h1, h24, by simpa using h40⟩

/-- C9: empty-region identity.  An empty mute-region list normalizes to an
empty interval list, the gain envelope is identically `1`, and the render —
hence its encoded WAV — coincides exactly (bit-identically after
quantization) with the plain additive mix with no gain shaping. -/
theorem c9_empty_regions_identity :
    mergedRegions [] = [] ∧
    (∀ d t : ℚ, gainValue [] d t = 1) ∧
    (∀ v inst : AudioBuffer, totalSamples v inst ≠ 0 →
      renderCleanAudio v inst [] = Except.ok (plainAdditiveMix v inst) ∧
      encodeWAV (renderedMix v inst []) = encodeWAV (plainAdditiveMix v inst)) := by
  have hgain : ∀ d t : ℚ, gainValue [] d t = 1 := by
    intro d t
    rw [gainValue]
    rw [show automationEvents [] d = [.setValue 1 0] from rfl]
    by_cases h : t < 0
    · rw [evalEvents, if_pos h]
    · rw [evalEvents, if_neg h, evalEvents]
  have hmix : ∀ v inst : AudioBuffer,
      renderedMix v inst [] = plainAdditiveMix v inst := by
    intro v inst
    rw [renderedMix, plainAdditiveMix]
    congr 1
    apply List.map_congr_left
    intro ch _
    apply List.map_congr_left
    intro i _
    rw [vocalContributionAtTime, hgain, one_mul]
  refine ⟨rfl, hgain, ?_⟩
  intro v inst htot
  constructor
  · rw [renderCleanAudio, if_neg htot, if_neg ?_, hmix]
    rw [show hasNegativeTime [] (mixDuration v inst) = false from rfl]
    simp
  · rw [hmix]

/-- C9, witness: the identity exercised at a concrete two-sample pair. -/
theorem c9_empty_regions_identity_witness :
    totalSamples ⟨2, [[1, 1]]⟩ ⟨2, [[0, 0]]⟩ ≠ 0 ∧
    renderCleanAudio ⟨2, [[1, 1]]⟩ ⟨2, [[0, 0]]⟩ [] =
      Except.ok (plainAdditiveMix ⟨2, [[1, 1]]⟩ ⟨2, [[0, 0]]⟩) := by
  refine ⟨by decide, ?_⟩
  exact (c9_empty_regions_identity.2.2 ⟨2, [[1, 1]]⟩ ⟨2, [[0, 0]]⟩ (by decide)).1
